import Mathlib

/-!
Shallow embedding of the Spam Guard TF-IDF naive Bayes classifier
(`TfIdfNaiveBayes` in the background script) together with proofs about
its training, prediction and snapshot behaviour.

JavaScript `Map`s are embedded as insertion-ordered association lists
(`Map.set` updates in place or appends at the end), machine numbers as
`Nat`/`ℚ` for the exact count arithmetic and as `ℝ` for the logarithmic
scoring, and fallible/optional record fields as `Option`.
-/

namespace SpamGuard

/-! ## Character classes used by the tokenizer -/

/-- JS `\w`: ASCII letters, digits and underscore. -/
def isWordChar (c : Char) : Bool := c.isAlphanum || c = '_'

/-- CJK ideograph range `一`–`鿿` kept by the tokenizer. -/
def isCJK (c : Char) : Bool := 0x4e00 ≤ c.toNat && c.toNat ≤ 0x9fff

/-- Characters surviving the final character filter of `tokenize`. -/
def isKeptChar (c : Char) : Bool :=
  isWordChar c || isCJK c || c = '@' || c = '.' || c = '-'

/-- Character class `[\w.-]` of the e-mail regexes. -/
def emailClassChar (c : Char) : Bool := isWordChar c || c = '.' || c = '-'

/-! ## Tokenizer: the regex replacement passes of `tokenize` -/

/-- Scanner loop of the `<[^>]*>` replacement.  The `fuel` argument
only bounds the recursion; every step consumes at least one character,
so starting it at the input length makes it inexhaustible. -/
def stripTagsGo : Nat → List Char → List Char
  | 0, l => l
  | _ + 1, [] => []
  | fuel + 1, c :: rest =>
    if c = '<' ∧ rest.contains '>' then
      ' ' :: stripTagsGo fuel ((rest.dropWhile (fun x => x ≠ '>')).tail)
    else c :: stripTagsGo fuel rest

/-- Source `text.replace(/<[^>]*>/g, ' ')`: every `<`…first-following-`>` span
becomes a single space; a `<` with no later `>` stays. -/
def stripTags (l : List Char) : List Char := stripTagsGo l.length l

/-- Source `text.replace(/https?:\/\/([^\s\/]+)[^\s]*/g, ' $1 ')`: a URL is
replaced by a space, its host component and a space; the rest of the
non-whitespace run after the host is discarded. -/
def urlPassGo : Nat → List Char → List Char
  | 0, l => l
  | _ + 1, [] => []
  | fuel + 1, c :: rest =>
    if (c :: rest).take 8 = ("https://".toList) then
      let after := (c :: rest).drop 8
      let host := after.takeWhile (fun x => !x.isWhitespace && x ≠ '/')
      if host.isEmpty then c :: urlPassGo fuel rest
      else ' ' :: (host ++ ' ' :: urlPassGo fuel
        ((after.drop host.length).dropWhile (fun x => !x.isWhitespace)))
    else if (c :: rest).take 7 = ("http://".toList) then
      let after := (c :: rest).drop 7
      let host := after.takeWhile (fun x => !x.isWhitespace && x ≠ '/')
      if host.isEmpty then c :: urlPassGo fuel rest
      else ' ' :: (host ++ ' ' :: urlPassGo fuel
        ((after.drop host.length).dropWhile (fun x => !x.isWhitespace)))
    else c :: urlPassGo fuel rest

/-- Source `text.replace(/https?:\/\/([^\s\/]+)[^\s]*/g, ' $1 ')`: a URL is
replaced by a space, its host component and a space; the rest of the
non-whitespace run after the host is discarded. -/
def urlPass (l : List Char) : List Char := urlPassGo l.length l

/-- Source `text.replace(/[\w.-]+@([\w.-]+)/g, ' $1 ')`: an address is replaced
by a space, its domain part and a space. -/
def emailPassGo : Nat → List Char → List Char
  | 0, l => l
  | _ + 1, [] => []
  | fuel + 1, c :: rest =>
    if emailClassChar c then
      let run := (c :: rest).takeWhile emailClassChar
      let after := (c :: rest).drop run.length
      match after with
      | '@' :: rest2 =>
        let run2 := rest2.takeWhile emailClassChar
        if run2.isEmpty then run ++ emailPassGo fuel after
        else ' ' :: (run2 ++ ' ' :: emailPassGo fuel (rest2.drop run2.length))
      | _ => run ++ emailPassGo fuel after
    else c :: emailPassGo fuel rest

/-- Source `text.replace(/[\w.-]+@([\w.-]+)/g, ' $1 ')`: an address is replaced
by a space, its domain part and a space. -/
def emailPass (l : List Char) : List Char := emailPassGo l.length l

/-- Source `tokenize(text)`: lowercase, strip markup, keep URL hosts and e-mail
domains, drop all other punctuation, split on whitespace, keep tokens of
length at least two.  `!text` makes the empty string yield no tokens. -/
def tokenize (text : String) : List String :=
  if text.isEmpty then []
  else
    let cs0 := text.toList.map Char.toLower
    let cs1 := stripTags cs0
    let cs2 := urlPass cs1
    let cs3 := emailPass cs2
    let cs4 := cs3.map (fun c => if isKeptChar c then c else ' ')
    ((cs4.splitOnP (fun c => c.isWhitespace)).map
      (fun w => String.mk w)).filter (fun w => 1 < w.length)

/-! ## Feature extraction -/

/-- Structured e-mail record; absent (`undefined`) fields are `none`,
and the JS truthiness test also treats the empty string as absent. -/
structure EmailData where
  senderName : Option String
  senderEmail : Option String
  subject : Option String
  body : Option String
deriving DecidableEq

/-- Source `senderEmail.match(/@([\w.-]+)/)`: domain captured after the first
`@` that is followed by at least one `[\w.-]` character. -/
def matchAtDomain : List Char → Option (List Char)
  | [] => none
  | '@' :: rest =>
    let run := rest.takeWhile emailClassChar
    if run.isEmpty then matchAtDomain rest else some run
  | _ :: rest => matchAtDomain rest

/-- Source `domain.split('.').pop()`: the last dot-separated label. -/
def lastDotLabel (dom : List Char) : String :=
  (((dom.splitOnP (fun c => c = '.')).map String.mk).getLast?).getD ""

/-- Source `extractFeatures(emailData)`: `name_` tokens from the sender name,
`domain_`/`tld_` features from the sender address, subject tokens twice
(prefixed `subj_` and bare), body tokens bare. -/
def extractFeatures (e : EmailData) : List String :=
  (match e.senderName with
   | some s => if s.isEmpty then [] else (tokenize s).map (fun t => "name_" ++ t)
   | none => []) ++
  (match e.senderEmail with
   | some s =>
     if s.isEmpty then []
     else
       match matchAtDomain s.toList with
       | some dom =>
         ["domain_" ++ String.mk (dom.map Char.toLower), "tld_" ++ lastDotLabel dom]
       | none => []
   | none => []) ++
  (match e.subject with
   | some s =>
     if s.isEmpty then []
     else (tokenize s).map (fun t => "subj_" ++ t) ++ tokenize s
   | none => []) ++
  (match e.body with
   | some s => if s.isEmpty then [] else tokenize s
   | none => [])

/-! ## Insertion-ordered maps (JS `Map`) as association lists -/

/-- Source `map.get(k)`. -/
def alGet : List (String × Nat) → String → Option Nat
  | [], _ => none
  | p :: rest, k => if p.1 = k then some p.2 else alGet rest k

/-- Source `map.get(k) || 0`. -/
def alGetD (l : List (String × Nat)) (k : String) : Nat := (alGet l k).getD 0

/-- Source `map.has(k)`. -/
def alHas {α : Type} : List (String × α) → String → Bool
  | [], _ => false
  | p :: rest, k => if p.1 = k then true else alHas rest k

/-- Source `map.set(k, (map.get(k) || 0) + 1)`: update in place, or append. -/
def alIncr : List (String × Nat) → String → List (String × Nat)
  | [], k => [(k, 1)]
  | p :: rest, k => if p.1 = k then (p.1, p.2 + 1) :: rest else p :: alIncr rest k

/-- Source `map.set(k, v)`: update in place, or append. -/
def alSet : List (String × Nat) → String → Nat → List (String × Nat)
  | [], k, v => [(k, v)]
  | p :: rest, k, v => if p.1 = k then (p.1, v) :: rest else p :: alSet rest k v

/-- Source `new Map(entries)`: insert the entries in order. -/
def mapFromEntries (l : List (String × Nat)) : List (String × Nat) :=
  l.foldl (fun acc p => alSet acc p.1 p.2) []

/-! ## Model state -/

/-- The two hard-coded classes. -/
inductive Label
  | spam
  | ham
deriving DecidableEq

/-- A `{spam: …, ham: …}` record. -/
structure ClassPair (α : Type) where
  spam : α
  ham : α
deriving DecidableEq

def ClassPair.get {α : Type} (p : ClassPair α) : Label → α
  | Label.spam => p.spam
  | Label.ham => p.ham

def ClassPair.set {α : Type} (p : ClassPair α) : Label → α → ClassPair α
  | Label.spam, v => ⟨v, p.ham⟩
  | Label.ham, v => ⟨p.spam, v⟩

/-- The mutable state of a `TfIdfNaiveBayes` instance. -/
structure Model where
  vocabulary : List (String × Nat)
  documentFrequency : List (String × Nat)
  totalDocuments : Nat
  classDocCount : ClassPair Nat
  classWordCounts : ClassPair (List (String × Nat))
  classTotalWords : ClassPair Nat
  alpha : ℚ
  minDf : Nat
  isTrained : Bool
deriving DecidableEq

/-- The constructor: empty accumulators, `alpha = 1.0`, `minDf = 2`,
untrained. -/
def mkModel : Model :=
  ⟨[], [], 0, ⟨0, 0⟩, ⟨[], []⟩, ⟨0, 0⟩, 1, 2, false⟩

/-! ## Training -/

/-- One element of the training corpus: either the new structured
format (`emailData`) or the legacy `text` format. -/
structure TrainItem where
  emailData : Option EmailData
  text : Option String
  label : Label
deriving DecidableEq

/-- Feature sequence of a training item; `none` when the item is
skipped by `train`'s `continue` (no `emailData` and falsy `text`). -/
def itemFeatures (it : TrainItem) : Option (List String) :=
  match it.emailData with
  | some e => some (extractFeatures e)
  | none =>
    match it.text with
    | some t => if t.isEmpty then none else some (tokenize t)
    | none => none

/-- Iteration of `new Set(features)`: keep the first occurrence of
each element, tracking the elements already seen. -/
def dedupKeepGo (seen : List String) : List String → List String
  | [] => []
  | x :: xs =>
    if x ∈ seen then dedupKeepGo seen xs
    else x :: dedupKeepGo (seen ++ [x]) xs

/-- Insertion-ordered distinct elements: `new Set(features)`. -/
def dedupKeep (l : List String) : List String := dedupKeepGo [] l

/-- The body of `train`'s corpus loop for one item. -/
def trainStep (m : Model) (it : TrainItem) : Model :=
  match itemFeatures it with
  | none => m
  | some features =>
    let uniq := dedupKeep features
    { m with
      documentFrequency := uniq.foldl alIncr m.documentFrequency,
      classDocCount := m.classDocCount.set it.label
        (m.classDocCount.get it.label + 1),
      classWordCounts := m.classWordCounts.set it.label
        (features.foldl alIncr (m.classWordCounts.get it.label)),
      classTotalWords := m.classTotalWords.set it.label
        (m.classTotalWords.get it.label + features.length) }

/-- Vocabulary construction: document-frequency entries meeting `minDf`
get consecutive indices in insertion order. -/
def buildVocab (df : List (String × Nat)) (minDf : Nat) : List (String × Nat) :=
  (df.foldl
    (fun (acc : List (String × Nat) × Nat) p =>
      if minDf ≤ p.2 then (acc.1 ++ [(p.1, acc.2)], acc.2 + 1) else acc)
    ([], 0)).1

/-- Source `train(trainingData)`: reset all accumulators, count the corpus,
filter the vocabulary and set the trained flag.  An empty corpus
returns early after the reset, before `isTrained` is assigned. -/
def train (m : Model) (data : List TrainItem) : Model :=
  let m0 : Model :=
    { m with
      vocabulary := [],
      documentFrequency := [],
      classWordCounts := ⟨[], []⟩,
      classTotalWords := ⟨0, 0⟩,
      classDocCount := ⟨0, 0⟩,
      totalDocuments := data.length }
  if data.isEmpty then m0
  else
    let m1 := data.foldl trainStep m0
    { m1 with
      vocabulary := buildVocab m1.documentFrequency m.minDf,
      isTrained := true }

/-! ## Snapshot serialization -/

/-- The plain-data snapshot produced by `serialize()`; note that
`alpha` and `minDf` are not part of it. -/
structure Serialized where
  vocabulary : List (String × Nat)
  documentFrequency : List (String × Nat)
  totalDocuments : Nat
  classDocCount : ClassPair Nat
  classWordCounts : ClassPair (List (String × Nat))
  classTotalWords : ClassPair Nat
  isTrained : Bool
deriving DecidableEq

/-- Source `serialize()`. -/
def serialize (m : Model) : Serialized :=
  ⟨m.vocabulary, m.documentFrequency, m.totalDocuments, m.classDocCount,
   m.classWordCounts, m.classTotalWords, m.isTrained⟩

/-- Source `deserialize(data)`: replaces the map state via `new Map(entries)`
and copies the scalars; `alpha` and `minDf` are untouched. -/
def deserialize (m : Model) (d : Serialized) : Model :=
  { m with
    vocabulary := mapFromEntries d.vocabulary,
    documentFrequency := mapFromEntries d.documentFrequency,
    totalDocuments := d.totalDocuments,
    classDocCount := d.classDocCount,
    classWordCounts :=
      ⟨mapFromEntries d.classWordCounts.spam, mapFromEntries d.classWordCounts.ham⟩,
    classTotalWords := d.classTotalWords,
    isTrained := d.isTrained }

/-! ## TF-IDF weighting and prediction

The exact count bookkeeping stays in `ℚ`; the transcendental scoring
(`Math.log` / `Math.exp`) is embedded over `ℝ`. -/

/-- The raw per-feature counts of one instance (`tf` before the
normalisation loop). -/
def countsList (words : List String) : List (String × Nat) :=
  words.foldl alIncr []

/-- Source `termFrequency(words)`: per-feature counts divided by
`words.length || 1`. -/
def termFrequency (words : List String) : List (String × ℚ) :=
  let docLength : ℚ := if words.length = 0 then 1 else (words.length : ℚ)
  (countsList words).map (fun p => (p.1, (p.2 : ℚ) / docLength))

/-- Source `idf(word)`: `0` for document frequency `0`, otherwise
`ln((N + 1) / (df + 1)) + 1`. -/
noncomputable def idf (m : Model) (word : String) : ℝ :=
  let df := alGetD m.documentFrequency word
  if df = 0 then 0
  else Real.log (((m.totalDocuments : ℝ) + 1) / ((df : ℝ) + 1)) + 1

/-- Source `tfidfFromFeatures(features)`: term frequency times inverse
document frequency, per feature of the instance. -/
noncomputable def tfidfFromFeatures (m : Model) (features : List String) :
    List (String × ℝ) :=
  (termFrequency features).map (fun p => (p.1, (p.2 : ℝ) * idf m p.1))

/-- Source `this.vocabulary.size || 1`, the smoothing denominator factor. -/
def vocabSize (m : Model) : Nat :=
  if m.vocabulary.length = 0 then 1 else m.vocabulary.length

/-- The class prior `(classDocCount[label] + alpha) / (totalDocuments + 2*alpha)`. -/
def priorQ (m : Model) (label : Label) : ℚ :=
  ((m.classDocCount.get label : ℚ) + m.alpha) /
    ((m.totalDocuments : ℚ) + 2 * m.alpha)

/-- The smoothed conditional probability
`(wordCount + alpha) / (totalWords + alpha * vocabSize)`. -/
def condProbQ (m : Model) (label : Label) (word : String) : ℚ :=
  ((alGetD (m.classWordCounts.get label) word : ℚ) + m.alpha) /
    ((m.classTotalWords.get label : ℚ) + m.alpha * (vocabSize m : ℚ))

/-- The loop of `predict` over the TF-IDF entries: features outside the
vocabulary are skipped, the rest contribute `ln(wordProb) * tfidf`. -/
noncomputable def vocabTermSum (m : Model) (entries : List (String × ℝ))
    (label : Label) : ℝ :=
  ((entries.filter (fun p => alHas m.vocabulary p.1)).map
    (fun p => Real.log ((condProbQ m label p.1 : ℚ) : ℝ) * p.2)).sum

/-- Source `logProbs[label]` computed from a given TF-IDF entry list. -/
noncomputable def logScoreOn (m : Model) (entries : List (String × ℝ))
    (label : Label) : ℝ :=
  Real.log ((priorQ m label : ℚ) : ℝ) + vocabTermSum m entries label

/-- Source `logProbs[label]` for a feature sequence. -/
noncomputable def logScore (m : Model) (features : List String) (label : Label) : ℝ :=
  logScoreOn m (tfidfFromFeatures m features) label

/-- The log-sum-exp normalisation of `predict`: subtract the maximal
log-score, exponentiate, divide by the sum.  First component is the
spam score, second the ham score. -/
noncomputable def posterior (m : Model) (features : List String) : ℝ × ℝ :=
  let ls := logScore m features Label.spam
  let lh := logScore m features Label.ham
  let mx := max ls lh
  let es := Real.exp (ls - mx)
  let eh := Real.exp (lh - mx)
  (es / (es + eh), eh / (es + eh))

/-- A prediction input: `predict` accepts a raw string or a structured
record. -/
inductive PredictInput
  | str (s : String)
  | email (e : EmailData)

/-- The feature sequence of a prediction input. -/
def inputFeatures : PredictInput → List String
  | PredictInput.str s => tokenize s
  | PredictInput.email e => extractFeatures e

/-- The result record of `predict`: label, probability of the returned
label, and the score map (empty for the untrained sentinel). -/
structure PredictResult where
  label : String
  probability : ℝ
  scores : List (String × ℝ)

/-- Source `predict(emailData)`: the untrained sentinel, or the normalised
two-class posterior with the argmax label (ties go to `ham` because
the comparison is strict). -/
noncomputable def predict (m : Model) (input : PredictInput) : PredictResult :=
  if m.isTrained = false then ⟨"unknown", 0, []⟩
  else
    let p := posterior m (inputFeatures input)
    { label := if p.1 > p.2 then "spam" else "ham",
      probability := if p.1 > p.2 then p.1 else p.2,
      scores := [("spam", p.1), ("ham", p.2)] }

/-! ## Concrete instances used in witnesses and counterexamples -/

/-- A two-document corpus: `aa` reaches the document-frequency minimum,
`bb` and `cc` stay below it. -/
def corpusC : List TrainItem :=
  [⟨none, some "aa aa bb", Label.spam⟩, ⟨none, some "aa cc", Label.ham⟩]

/-- The model trained on `corpusC` with default configuration. -/
def modelC : Model := train mkModel corpusC

/-- A one-document corpus used with an overridden smoothing constant. -/
def corpusA : List TrainItem := [⟨none, some "aa", Label.spam⟩]

/-- The model with `alpha` overridden to `2`, trained on `corpusA`. -/
def modelA : Model := train { mkModel with alpha := 2 } corpusA

/-- A symmetric corpus: one spam and one ham document, no feature
reaching the document-frequency minimum. -/
def corpusT : List TrainItem :=
  [⟨none, some "aa aa", Label.spam⟩, ⟨none, some "bb bb", Label.ham⟩]

/-- The model trained on the symmetric corpus `corpusT`. -/
def modelT : Model := train mkModel corpusT

/-! ## Association-list lemmas -/

/-- The keys of an association list, in order. -/
def alKeys {α : Type} (l : List (String × α)) : List String := l.map Prod.fst

theorem alHas_iff_mem_keys {α : Type} (l : List (String × α)) (w : String) :
    alHas l w = true ↔ w ∈ alKeys l := by
  induction l with
  | nil => simp [alHas, alKeys]
  | cons p rest ih =>
    simp only [alHas, alKeys, List.map_cons, List.mem_cons]
    by_cases h : p.1 = w
    · simp [h]
    · have h2 : ¬ w = p.1 := fun hh => h hh.symm
      simp only [if_neg h, ih, alKeys, h2, false_or]

theorem alGetD_alIncr (l : List (String × Nat)) (k w : String) :
    alGetD (alIncr l k) w = if w = k then alGetD l w + 1 else alGetD l w := by
  induction l with
  | nil =>
    by_cases h : w = k
    · simp [alIncr, alGet, alGetD, h]
    · have h2 : ¬ k = w := fun hh => h hh.symm
      simp [alIncr, alGet, alGetD, h, h2]
  | cons p rest ih =>
    by_cases hpk : p.1 = k
    · by_cases hw : w = k
      · subst hw
        simp [alIncr, alGetD, alGet, hpk]
      · have hpw : ¬ p.1 = w := fun hh => hw ((hpk ▸ hh : k = w)).symm
        have hkw : ¬ k = w := fun hh => hw hh.symm
        simp [alIncr, alGetD, alGet, hpk, hpw, hw, hkw]
    · by_cases hpw : p.1 = w
      · have hw : ¬ w = k := fun hh => hpk (hpw.symm ▸ hh)
        simp [alIncr, alGetD, alGet, hpk, hpw, hw]
      · simp only [alIncr, if_neg hpk, alGetD, alGet, if_neg hpw]
        exact ih

theorem alGetD_foldl_alIncr (us : List String) (l : List (String × Nat)) (w : String) :
    alGetD (us.foldl alIncr l) w = alGetD l w + us.count w := by
  induction us generalizing l with
  | nil => simp
  | cons u us ih =>
    simp only [List.foldl_cons, ih, alGetD_alIncr]
    by_cases h : w = u <;> simp [List.count_cons, h] <;> omega

theorem mem_dedupKeepGo (l seen : List String) (w : String) :
    w ∈ dedupKeepGo seen l ↔ w ∈ l ∧ w ∉ seen := by
  induction l generalizing seen with
  | nil => simp [dedupKeepGo]
  | cons x xs ih =>
    by_cases hx : x ∈ seen
    · rw [dedupKeepGo, if_pos hx, ih]
      constructor
      · rintro ⟨hw, hs⟩
        exact ⟨List.mem_cons_of_mem x hw, hs⟩
      · rintro ⟨hw, hs⟩
        rcases List.mem_cons.mp hw with rfl | hw2
        · exact absurd hx hs
        · exact ⟨hw2, hs⟩
    · rw [dedupKeepGo, if_neg hx]
      constructor
      · intro hmem
        rcases List.mem_cons.mp hmem with rfl | hw2
        · exact ⟨List.mem_cons_self _ _, hx⟩
        · obtain ⟨hw3, hs3⟩ := (ih (seen ++ [x])).mp hw2
          refine ⟨List.mem_cons_of_mem x hw3, fun hws => hs3 ?_⟩
          exact List.mem_append_left _ hws
      · rintro ⟨hw, hs⟩
        rcases List.mem_cons.mp hw with rfl | hw2
        · exact List.mem_cons_self _ _
        · by_cases hwx : w = x
          · subst hwx
            exact List.mem_cons_self _ _
          · refine List.mem_cons_of_mem x ((ih (seen ++ [x])).mpr ⟨hw2, ?_⟩)
            intro hmem2
            rcases List.mem_append.mp hmem2 with h1 | h1
            · exact hs h1
            · exact hwx (by simpa using h1)

theorem mem_dedupKeep (l : List String) (w : String) :
    w ∈ dedupKeep l ↔ w ∈ l := by
  unfold dedupKeep
  rw [mem_dedupKeepGo]
  simp

theorem nodup_dedupKeepGo (l seen : List String) : (dedupKeepGo seen l).Nodup := by
  induction l generalizing seen with
  | nil => simp [dedupKeepGo]
  | cons x xs ih =>
    by_cases hx : x ∈ seen
    · rw [dedupKeepGo, if_pos hx]
      exact ih seen
    · rw [dedupKeepGo, if_neg hx]
      refine List.nodup_cons.mpr ⟨?_, ih (seen ++ [x])⟩
      intro hmem
      exact ((mem_dedupKeepGo xs (seen ++ [x]) x).mp hmem).2 (by simp)

theorem nodup_dedupKeep (l : List String) : (dedupKeep l).Nodup :=
  nodup_dedupKeepGo l []

theorem count_dedupKeep (l : List String) (w : String) :
    (dedupKeep l).count w = if w ∈ l then 1 else 0 := by
  by_cases h : w ∈ l
  · rw [if_pos h]
    exact List.count_eq_one_of_mem (nodup_dedupKeep l) ((mem_dedupKeep l w).mpr h)
  · rw [if_neg h]
    exact List.count_eq_zero.mpr (fun hc => h ((mem_dedupKeep l w).mp hc))

theorem alKeys_alIncr (l : List (String × Nat)) (k : String) :
    alKeys (alIncr l k) = if alHas l k then alKeys l else alKeys l ++ [k] := by
  induction l with
  | nil => simp [alIncr, alHas, alKeys]
  | cons p rest ih =>
    by_cases h : p.1 = k
    · simp [alIncr, alHas, alKeys, h]
    · simp only [alIncr, if_neg h, alHas, alKeys, List.map_cons]
      rw [show alKeys (alIncr rest k) = (alIncr rest k).map Prod.fst from rfl] at ih
      rw [ih]
      by_cases h2 : alHas rest k <;> simp [h2, alKeys]

theorem nodup_alKeys_alIncr (l : List (String × Nat)) (k : String)
    (h : (alKeys l).Nodup) : (alKeys (alIncr l k)).Nodup := by
  rw [alKeys_alIncr]
  by_cases hh : alHas l k
  · simpa [hh]
  · simp only [hh, if_neg Bool.false_ne_true]
    rw [List.nodup_append]
    refine ⟨h, List.nodup_singleton k, ?_⟩
    intro a ha hb
    simp only [List.mem_singleton] at hb
    subst hb
    exact absurd ((alHas_iff_mem_keys l a).mpr ha) (by simpa using hh)

theorem nodup_alKeys_foldl_alIncr (us : List String) (l : List (String × Nat))
    (h : (alKeys l).Nodup) : (alKeys (us.foldl alIncr l)).Nodup := by
  induction us generalizing l with
  | nil => simpa
  | cons u us ih => exact ih _ (nodup_alKeys_alIncr _ _ h)

theorem alGet_eq_some_of_mem (l : List (String × Nat)) (w : String) (c : Nat)
    (hmem : (w, c) ∈ l) (hnd : (alKeys l).Nodup) : alGet l w = some c := by
  induction l with
  | nil => simp at hmem
  | cons p rest ih =>
    simp only [List.mem_cons] at hmem
    rcases hmem with h | h
    · subst h
      simp [alGet]
    · have hnd2 : (alKeys rest).Nodup := (List.nodup_cons.mp hnd).2
      have hne : ¬ p.1 = w := by
        intro hh
        have : w ∈ alKeys rest := List.mem_map_of_mem Prod.fst h
        exact (List.nodup_cons.mp hnd).1 (hh ▸ this)
      simp only [alGet, if_neg hne]
      exact ih h hnd2

/-! ### `new Map` round-trips -/

theorem alSet_of_not_has (l : List (String × Nat)) (k : String) (v : Nat)
    (h : alHas l k = false) : alSet l k v = l ++ [(k, v)] := by
  induction l with
  | nil => simp [alSet]
  | cons p rest ih =>
    simp only [alHas] at h
    by_cases hp : p.1 = k
    · simp [hp] at h
    · simp only [alSet, if_neg hp, List.cons_append, List.cons.injEq, true_and]
      exact ih (by simpa [hp] using h)

theorem foldl_alSet_of_nodup (l acc : List (String × Nat))
    (hnd : (alKeys (acc ++ l)).Nodup) :
    l.foldl (fun a p => alSet a p.1 p.2) acc = acc ++ l := by
  induction l generalizing acc with
  | nil => simp
  | cons p rest ih =>
    have hnot : alHas acc p.1 = false := by
      rcases h : alHas acc p.1 with _ | _
      · rfl
      · exfalso
        have hmem : p.1 ∈ alKeys acc := (alHas_iff_mem_keys acc p.1).mp h
        have : (alKeys acc ++ alKeys (p :: rest)).Nodup := by
          simpa [alKeys] using hnd
        rw [List.nodup_append] at this
        exact this.2.2 hmem (by simp [alKeys])
    simp only [List.foldl_cons]
    rw [alSet_of_not_has acc p.1 p.2 hnot]
    rw [ih (acc ++ [p]) (by simpa using hnd)]
    simp

theorem mapFromEntries_self (l : List (String × Nat)) (hnd : (alKeys l).Nodup) :
    mapFromEntries l = l := by
  unfold mapFromEntries
  rw [foldl_alSet_of_nodup l [] (by simpa using hnd)]
  simp

/-! ## Training lemmas -/

theorem get_set_classPair {α : Type} (p : ClassPair α) (l l2 : Label) (v : α) :
    (p.set l v).get l2 = if l2 = l then v else p.get l2 := by
  cases l <;> cases l2 <;> simp [ClassPair.get, ClassPair.set]

/-- Whether a training item's feature multiset contains a feature;
skipped items contain nothing. -/
def containsFeature (it : TrainItem) (w : String) : Bool :=
  decide (w ∈ (itemFeatures it).getD [])

/-- The number of training documents whose feature multiset contains
the feature `w` at least once. -/
def docsContaining (data : List TrainItem) (w : String) : Nat :=
  (data.filter (fun it => containsFeature it w)).length

theorem alGetD_df_trainStep (m : Model) (it : TrainItem) (w : String) :
    alGetD (trainStep m it).documentFrequency w =
      alGetD m.documentFrequency w + (if containsFeature it w then 1 else 0) := by
  unfold trainStep containsFeature
  cases h : itemFeatures it with
  | none => simp [h]
  | some fs =>
    simp only [h, alGetD_foldl_alIncr, count_dedupKeep, Option.getD_some]
    by_cases hw : w ∈ fs <;> simp [hw]

theorem alGetD_df_foldl (data : List TrainItem) (m : Model) (w : String) :
    alGetD ((data.foldl trainStep m).documentFrequency) w =
      alGetD m.documentFrequency w + docsContaining data w := by
  induction data generalizing m with
  | nil => simp [docsContaining]
  | cons it data ih =>
    simp only [List.foldl_cons, ih, alGetD_df_trainStep]
    unfold docsContaining
    by_cases h : containsFeature it w <;> simp [List.filter_cons, h] <;> omega

theorem trainStep_totalDocuments (m : Model) (it : TrainItem) :
    (trainStep m it).totalDocuments = m.totalDocuments := by
  unfold trainStep
  cases h : itemFeatures it <;> simp [h]

theorem foldl_totalDocuments (data : List TrainItem) (m : Model) :
    (data.foldl trainStep m).totalDocuments = m.totalDocuments := by
  induction data generalizing m with
  | nil => rfl
  | cons it data ih => simp [List.foldl_cons, ih, trainStep_totalDocuments]

theorem trainStep_config (m : Model) (it : TrainItem) :
    (trainStep m it).alpha = m.alpha ∧ (trainStep m it).minDf = m.minDf ∧
      (trainStep m it).isTrained = m.isTrained ∧
      (trainStep m it).vocabulary = m.vocabulary := by
  unfold trainStep
  cases h : itemFeatures it <;> simp [h]

theorem foldl_config (data : List TrainItem) (m : Model) :
    (data.foldl trainStep m).alpha = m.alpha ∧
      (data.foldl trainStep m).minDf = m.minDf ∧
      (data.foldl trainStep m).isTrained = m.isTrained ∧
      (data.foldl trainStep m).vocabulary = m.vocabulary := by
  induction data generalizing m with
  | nil => exact ⟨rfl, rfl, rfl, rfl⟩
  | cons it data ih =>
    have h := trainStep_config m it
    have h2 := ih (trainStep m it)
    exact ⟨h2.1.trans h.1, h2.2.1.trans h.2.1, h2.2.2.1.trans h.2.2.1,
      h2.2.2.2.trans h.2.2.2⟩

theorem nodup_df_foldl (data : List TrainItem) (m : Model)
    (h : (alKeys m.documentFrequency).Nodup) :
    (alKeys ((data.foldl trainStep m).documentFrequency)).Nodup := by
  induction data generalizing m with
  | nil => simpa
  | cons it data ih =>
    refine ih (trainStep m it) ?_
    unfold trainStep
    cases hfs : itemFeatures it with
    | none => simpa [hfs]
    | some fs =>
      simp only [hfs]
      exact nodup_alKeys_foldl_alIncr _ _ h

theorem nodup_cwc_foldl (data : List TrainItem) (m : Model) (lab : Label)
    (h : ∀ l2, (alKeys (m.classWordCounts.get l2)).Nodup) :
    (alKeys ((data.foldl trainStep m).classWordCounts.get lab)).Nodup := by
  induction data generalizing m with
  | nil => exact h lab
  | cons it data ih =>
    refine ih (trainStep m it) ?_
    intro l2
    unfold trainStep
    cases hfs : itemFeatures it with
    | none => simpa [hfs] using h l2
    | some fs =>
      simp only [hfs, get_set_classPair]
      by_cases hl : l2 = it.label
      · simpa [hl] using nodup_alKeys_foldl_alIncr fs _ (h it.label)
      · simpa [hl] using h l2

/-! ### Vocabulary construction lemmas -/

theorem buildVocab_aux (df : List (String × Nat)) (minDf : Nat)
    (acc : List (String × Nat)) (i : Nat) :
    alKeys (df.foldl
      (fun (a : List (String × Nat) × Nat) p =>
        if minDf ≤ p.2 then (a.1 ++ [(p.1, a.2)], a.2 + 1) else a)
      (acc, i)).1 =
      alKeys acc ++ alKeys (df.filter (fun p => minDf ≤ p.2)) := by
  induction df generalizing acc i with
  | nil => simp [alKeys]
  | cons p rest ih =>
    by_cases h : minDf ≤ p.2
    · simp only [List.foldl_cons, if_pos h, ih, List.filter_cons, h]
      simp [alKeys]
    · simp only [List.foldl_cons, if_neg h, ih, List.filter_cons]
      simp [alKeys, h]

theorem alKeys_buildVocab (df : List (String × Nat)) (minDf : Nat) :
    alKeys (buildVocab df minDf) = alKeys (df.filter (fun p => minDf ≤ p.2)) := by
  unfold buildVocab
  rw [show (([], 0) : List (String × Nat) × Nat) = (([] : List (String × Nat)), 0) from rfl]
  rw [buildVocab_aux]
  simp [alKeys]

theorem nodup_alKeys_buildVocab (df : List (String × Nat)) (minDf : Nat)
    (h : (alKeys df).Nodup) : (alKeys (buildVocab df minDf)).Nodup := by
  rw [alKeys_buildVocab]
  exact ((List.filter_sublist df).map Prod.fst).nodup h

theorem alHas_buildVocab_imp (df : List (String × Nat)) (minDf : Nat) (w : String)
    (h : alHas (buildVocab df minDf) w = true) :
    ∃ c, (w, c) ∈ df ∧ minDf ≤ c := by
  rw [alHas_iff_mem_keys, alKeys_buildVocab] at h
  simp only [alKeys, List.mem_map] at h
  obtain ⟨p, hp, hpw⟩ := h
  rw [List.mem_filter] at hp
  refine ⟨p.2, ?_, by simpa using hp.2⟩
  rw [show (w, p.2) = p from by rw [← hpw]]
  exact hp.1

/-! ### Facts about `train` -/

theorem train_totalDocuments (m : Model) (data : List TrainItem) :
    (train m data).totalDocuments = data.length := by
  unfold train
  by_cases h : data.isEmpty
  · simp [h]
  · simp [h, foldl_totalDocuments]

theorem train_minDf (m : Model) (data : List TrainItem) :
    (train m data).minDf = m.minDf := by
  unfold train
  by_cases h : data.isEmpty
  · simp [h]
  · simp [h, (foldl_config data _).2.1]

theorem train_alpha (m : Model) (data : List TrainItem) :
    (train m data).alpha = m.alpha := by
  unfold train
  by_cases h : data.isEmpty
  · simp [h]
  · simp [h, (foldl_config data _).1]

theorem train_df_eq (m : Model) (data : List TrainItem) (hne : ¬ data.isEmpty) :
    (train m data).documentFrequency =
      (data.foldl trainStep
        { m with
          vocabulary := [], documentFrequency := [],
          classWordCounts := ⟨[], []⟩, classTotalWords := ⟨0, 0⟩,
          classDocCount := ⟨0, 0⟩,
          totalDocuments := data.length }).documentFrequency := by
  unfold train
  simp [hne]

theorem nodup_train_df (m : Model) (data : List TrainItem) :
    (alKeys (train m data).documentFrequency).Nodup := by
  unfold train
  by_cases h : data.isEmpty
  · simp [h, alKeys]
  · simp only [h, if_neg Bool.false_ne_true]
    exact nodup_df_foldl data _ (by simp [alKeys])

theorem nodup_train_vocab (m : Model) (data : List TrainItem) :
    (alKeys (train m data).vocabulary).Nodup := by
  unfold train
  by_cases h : data.isEmpty
  · simp [h, alKeys]
  · simp only [h, if_neg Bool.false_ne_true]
    exact nodup_alKeys_buildVocab _ _ (nodup_df_foldl data _ (by simp [alKeys]))

theorem nodup_train_cwc (m : Model) (data : List TrainItem) (lab : Label) :
    (alKeys ((train m data).classWordCounts.get lab)).Nodup := by
  unfold train
  by_cases h : data.isEmpty
  · cases lab <;> simp [h, alKeys, ClassPair.get]
  · simp only [h, if_neg Bool.false_ne_true]
    refine nodup_cwc_foldl data _ lab ?_
    intro l2
    cases l2 <;> simp [alKeys, ClassPair.get]

/-- C8: after training, every feature's recorded document frequency
equals the number of training documents containing it, and is bounded
by the total document count. -/
theorem claim8_document_frequency (m : Model) (data : List TrainItem) (w : String) :
    alGetD (train m data).documentFrequency w = docsContaining data w ∧
      docsContaining data w ≤ (train m data).totalDocuments := by
  constructor
  · unfold train
    by_cases h : data.isEmpty
    · have hd : data = [] := List.isEmpty_iff.mp h
      simp [h, hd, docsContaining, alGetD, alGet]
    · simp only [h, if_neg Bool.false_ne_true]
      rw [alGetD_df_foldl]
      simp [alGetD, alGet]
  · rw [train_totalDocuments]
    exact List.length_filter_le _ data

/-- Accumulator agreement is preserved through the corpus loop. -/
theorem foldl_trainStep_congr (data : List TrainItem) (m1 m2 : Model)
    (hdf : m1.documentFrequency = m2.documentFrequency)
    (hcdc : m1.classDocCount = m2.classDocCount)
    (hcwc : m1.classWordCounts = m2.classWordCounts)
    (hctw : m1.classTotalWords = m2.classTotalWords) :
    (data.foldl trainStep m1).documentFrequency =
        (data.foldl trainStep m2).documentFrequency ∧
      (data.foldl trainStep m1).classDocCount =
        (data.foldl trainStep m2).classDocCount ∧
      (data.foldl trainStep m1).classWordCounts =
        (data.foldl trainStep m2).classWordCounts ∧
      (data.foldl trainStep m1).classTotalWords =
        (data.foldl trainStep m2).classTotalWords := by
  induction data generalizing m1 m2 with
  | nil => exact ⟨hdf, hcdc, hcwc, hctw⟩
  | cons it data ih =>
    simp only [List.foldl_cons]
    refine ih (trainStep m1 it) (trainStep m2 it) ?_ ?_ ?_ ?_ <;>
      unfold trainStep <;> cases hfs : itemFeatures it <;>
        simp [hfs, hdf, hcdc, hcwc, hctw]

/-- Training result snapshots depend only on the corpus, the
document-frequency minimum, and (for the empty corpus) the previous
trained flag. -/
theorem serialize_train_congr (m1 m2 : Model) (data : List TrainItem)
    (hmin : m1.minDf = m2.minDf)
    (hflag : data = [] → m1.isTrained = m2.isTrained) :
    serialize (train m1 data) = serialize (train m2 data) := by
  unfold train serialize
  by_cases h : data.isEmpty
  · have hd : data = [] := List.isEmpty_iff.mp h
    simp [h, hflag hd]
  · simp only [h, if_neg Bool.false_ne_true]
    have hc := foldl_trainStep_congr data
      { m1 with
        vocabulary := [], documentFrequency := [],
        classWordCounts := ⟨[], []⟩, classTotalWords := ⟨0, 0⟩,
        classDocCount := ⟨0, 0⟩, totalDocuments := data.length }
      { m2 with
        vocabulary := [], documentFrequency := [],
        classWordCounts := ⟨[], []⟩, classTotalWords := ⟨0, 0⟩,
        classDocCount := ⟨0, 0⟩, totalDocuments := data.length }
      rfl rfl rfl rfl
    simp only [Serialized.mk.injEq]
    refine ⟨?_, hc.1, ?_, hc.2.1, hc.2.2.1, hc.2.2.2, trivial⟩
    · rw [hc.1, hmin]
    · rw [foldl_totalDocuments, foldl_totalDocuments]

/-- C9: training a fresh model twice on the same corpus yields the same
serialized state as training it once. -/
theorem claim9_train_idempotent (data : List TrainItem) :
    serialize (train (train mkModel data) data) = serialize (train mkModel data) := by
  refine serialize_train_congr _ _ data ?_ ?_
  · rw [train_minDf]
  · intro h
    subst h
    rfl

/-- C3 counterexample: training on the empty corpus does not set the
trained flag (the early return skips the assignment). -/
theorem claim3_cex : ¬ ((train mkModel []).isTrained = true) := by decide

/-- C3 (amended): training on an empty corpus empties every
accumulator and zeroes every count, but leaves the trained flag
unchanged — false, not true, on a fresh model. -/
theorem claim3_empty_corpus (m : Model) :
    (train m []).vocabulary = [] ∧
      (train m []).documentFrequency = [] ∧
      (train m []).classWordCounts = ⟨[], []⟩ ∧
      (train m []).classTotalWords = ⟨0, 0⟩ ∧
      (train m []).classDocCount = ⟨0, 0⟩ ∧
      (train m []).totalDocuments = 0 ∧
      (train m []).isTrained = m.isTrained :=
  ⟨rfl, rfl, rfl, rfl, rfl, rfl, rfl⟩

/-! ## Prediction lemmas -/

theorem posterior_sum_one (m : Model) (fs : List String) :
    (posterior m fs).1 + (posterior m fs).2 = 1 := by
  unfold posterior
  simp only
  rw [div_add_div_same, div_self]
  exact ne_of_gt (add_pos (Real.exp_pos _) (Real.exp_pos _))

theorem posterior_fst_eq (m : Model) (fs : List String) :
    (posterior m fs).1 =
      1 / (1 + Real.exp (logScore m fs Label.ham - logScore m fs Label.spam)) := by
  unfold posterior
  simp only
  have hpos : (0:ℝ) < Real.exp (logScore m fs Label.spam - max (logScore m fs Label.spam) (logScore m fs Label.ham)) + Real.exp (logScore m fs Label.ham - max (logScore m fs Label.spam) (logScore m fs Label.ham)) := by positivity
  have hpos2 : (0:ℝ) < 1 + Real.exp (logScore m fs Label.ham - logScore m fs Label.spam) := by positivity
  rw [div_eq_div_iff (ne_of_gt hpos) (ne_of_gt hpos2)]
  rw [mul_add, mul_one, one_mul, ← Real.exp_add]
  congr 2
  ring

theorem posterior_snd_eq (m : Model) (fs : List String) :
    (posterior m fs).2 =
      1 / (1 + Real.exp (logScore m fs Label.spam - logScore m fs Label.ham)) := by
  unfold posterior
  simp only
  have hpos : (0:ℝ) < Real.exp (logScore m fs Label.spam - max (logScore m fs Label.spam) (logScore m fs Label.ham)) + Real.exp (logScore m fs Label.ham - max (logScore m fs Label.spam) (logScore m fs Label.ham)) := by positivity
  have hpos2 : (0:ℝ) < 1 + Real.exp (logScore m fs Label.spam - logScore m fs Label.ham) := by positivity
  rw [div_eq_div_iff (ne_of_gt hpos) (ne_of_gt hpos2)]
  rw [mul_add, mul_one, one_mul, ← Real.exp_add, add_comm]
  congr 2
  ring

/-- C5: prediction on an untrained model returns the sentinel result
for every input. -/
theorem claim5_untrained_sentinel (m : Model) (x : PredictInput)
    (h : m.isTrained = false) :
    predict m x = ⟨"unknown", 0, []⟩ := by
  unfold predict
  rw [if_pos h]

/-- C5 witness: the sentinel on a fresh model and the empty string. -/
theorem claim5_untrained_sentinel_witness :
    mkModel.isTrained = false ∧
      predict mkModel (PredictInput.str "") =
        ⟨"unknown", 0, []⟩ :=
  ⟨rfl, claim5_untrained_sentinel mkModel (PredictInput.str "") rfl⟩

/-- C4: on a trained model the two class scores sum to exactly one and
the returned probability is the returned label's score. -/
theorem claim4_probability_normalization (m : Model) (x : PredictInput)
    (h : m.isTrained = true) :
    ∃ ps ph : ℝ,
      (predict m x).scores = [("spam", ps), ("ham", ph)] ∧
        ps + ph = 1 ∧
        (((predict m x).label = "spam" ∧ (predict m x).probability = ps) ∨
         ((predict m x).label = "ham" ∧ (predict m x).probability = ph)) := by
  have hcond : ¬ (m.isTrained = false) := by simp [h]
  refine ⟨(posterior m (inputFeatures x)).1, (posterior m (inputFeatures x)).2,
    ?_, posterior_sum_one m (inputFeatures x), ?_⟩
  · unfold predict
    rw [if_neg hcond]
  · unfold predict
    rw [if_neg hcond]
    by_cases hgt : (posterior m (inputFeatures x)).1 > (posterior m (inputFeatures x)).2
    · left
      simp [hgt]
    · right
      simp [hgt]

/-- C4 witness: a concretely trained one-document model. -/
theorem claim4_probability_normalization_witness :
    (train mkModel [⟨none, some "aa", Label.spam⟩]).isTrained = true ∧
      (∃ ps ph : ℝ,
        (predict (train mkModel [⟨none, some "aa", Label.spam⟩])
            (PredictInput.str "bb")).scores = [("spam", ps), ("ham", ph)] ∧
          ps + ph = 1 ∧
          (((predict (train mkModel [⟨none, some "aa", Label.spam⟩])
              (PredictInput.str "bb")).label = "spam" ∧
            (predict (train mkModel [⟨none, some "aa", Label.spam⟩])
              (PredictInput.str "bb")).probability = ps) ∨
           ((predict (train mkModel [⟨none, some "aa", Label.spam⟩])
              (PredictInput.str "bb")).label = "ham" ∧
            (predict (train mkModel [⟨none, some "aa", Label.spam⟩])
              (PredictInput.str "bb")).probability = ph))) :=
  ⟨by decide,
   claim4_probability_normalization (train mkModel [⟨none, some "aa", Label.spam⟩])
     (PredictInput.str "bb") (by decide)⟩

/-- C10: when the two normalised scores are exactly equal, the strict
comparison fails and `predict` returns the label `ham`. -/
theorem claim10_tie_breaks_ham (m : Model) (x : PredictInput)
    (h : m.isTrained = true)
    (heq : (posterior m (inputFeatures x)).1 = (posterior m (inputFeatures x)).2) :
    (predict m x).label = "ham" := by
  have hcond : ¬ (m.isTrained = false) := by simp [h]
  unfold predict
  rw [if_neg hcond]
  simp only
  rw [if_neg]
  intro hgt
  rw [heq] at hgt
  exact lt_irrefl _ hgt

/-! ## Feature-extraction lemmas -/

theorem tokenize_of_isEmpty (s : String) (h : s.isEmpty = true) : tokenize s = [] := by
  unfold tokenize
  rw [if_pos h]

theorem subj_append_injective :
    Function.Injective (fun t : String => "subj_" ++ t) := by
  intro a b hab
  have h2 : ("subj_" ++ a).data = ("subj_" ++ b).data := congrArg String.data hab
  rw [String.data_append, String.data_append] at h2
  have h3 := List.append_cancel_left h2
  cases a
  cases b
  exact congrArg String.mk (by simpa using h3)

/-- C7: subject tokens are emitted twice (prefixed and bare), body
tokens once and bare, and missing fields contribute no features. -/
theorem claim7_feature_channels (nm em : Option String) (s b : String) :
    extractFeatures ⟨nm, em, some s, some b⟩ =
        extractFeatures ⟨nm, em, none, none⟩ ++
          (((tokenize s).map (fun t => "subj_" ++ t)) ++ tokenize s) ++ tokenize b ∧
      (∀ t : String,
        ((tokenize s).map (fun t => "subj_" ++ t)).count ("subj_" ++ t) =
          (tokenize s).count t) ∧
      extractFeatures ⟨none, none, none, none⟩ = [] := by
  refine ⟨?_, ?_, rfl⟩
  · show (extractFeatures ⟨nm, em, some s, some b⟩ = _)
    unfold extractFeatures
    simp only
    by_cases hs : s.isEmpty <;> by_cases hb : b.isEmpty <;>
      simp [hs, hb, tokenize_of_isEmpty]
  · intro t
    exact List.count_map_of_injective (tokenize s) _ subj_append_injective t

/-! ## Vocabulary gating -/

theorem train_vocab_eq (m : Model) (data : List TrainItem) (hne : ¬ data.isEmpty = true) :
    (train m data).vocabulary =
      buildVocab
        ((data.foldl trainStep
          { m with
            vocabulary := [], documentFrequency := [],
            classWordCounts := ⟨[], []⟩, classTotalWords := ⟨0, 0⟩,
            classDocCount := ⟨0, 0⟩,
            totalDocuments := data.length }).documentFrequency) m.minDf := by
  unfold train
  simp [hne]

theorem vocab_filter_drop (m : Model) (w : String) (hw : alHas m.vocabulary w = false)
    (entries : List (String × ℝ)) :
    entries.filter (fun p => alHas m.vocabulary p.1) =
      (entries.filter (fun p => ¬ p.1 = w)).filter
        (fun p => alHas m.vocabulary p.1) := by
  rw [List.filter_filter]
  apply List.filter_congr
  intro p hp
  rcases hv : alHas m.vocabulary p.1 with _ | _
  · simp
  · have hne : ¬ p.1 = w := by
      intro hh
      rw [hh, hw] at hv
      exact Bool.false_ne_true hv
    simp [hne]

/-- C6: a feature whose corpus-wide document frequency is below the
configured minimum never enters the vocabulary, and its term is skipped
by the log-score computation: the log-score equals the one computed on
the TF-IDF entries with that feature dropped. -/
theorem claim6_vocabulary_gating (m : Model) (data : List TrainItem) (w : String)
    (h : alGetD (train m data).documentFrequency w < m.minDf) :
    alHas (train m data).vocabulary w = false ∧
      ∀ (fs : List String) (c : Label),
        logScore (train m data) fs c =
          logScoreOn (train m data)
            ((tfidfFromFeatures (train m data) fs).filter (fun p => ¬ p.1 = w)) c := by
  have hvw : alHas (train m data).vocabulary w = false := by
    rcases hv : alHas (train m data).vocabulary w with _ | _
    · rfl
    · exfalso
      by_cases hd : data.isEmpty
      · unfold train at hv
        rw [if_pos hd] at hv
        simp [alHas] at hv
      · rw [train_vocab_eq m data hd] at hv
        obtain ⟨cc, hmem, hcc⟩ := alHas_buildVocab_imp _ _ _ hv
        have hnd := nodup_df_foldl data
          { m with
            vocabulary := [], documentFrequency := [],
            classWordCounts := ⟨[], []⟩, classTotalWords := ⟨0, 0⟩,
            classDocCount := ⟨0, 0⟩,
            totalDocuments := data.length } (by simp [alKeys])
        have hget := alGet_eq_some_of_mem _ _ _ hmem hnd
        rw [train_df_eq m data hd] at h
        rw [show alGetD ((data.foldl trainStep
          { m with
            vocabulary := [], documentFrequency := [],
            classWordCounts := ⟨[], []⟩, classTotalWords := ⟨0, 0⟩,
            classDocCount := ⟨0, 0⟩,
            totalDocuments := data.length }).documentFrequency) w = cc from by
              rw [alGetD, hget]; rfl] at h
        omega
  refine ⟨hvw, fun fs c => ?_⟩
  unfold logScore logScoreOn vocabTermSum
  rw [← vocab_filter_drop _ _ hvw]

/-- C6 witness: on a one-document corpus the feature `aa` has document
frequency `1 < 2` and is gated out of the vocabulary. -/
theorem claim6_vocabulary_gating_witness :
    alGetD (train mkModel [⟨none, some "aa", Label.spam⟩]).documentFrequency "aa" <
        mkModel.minDf ∧
      alHas (train mkModel [⟨none, some "aa", Label.spam⟩]).vocabulary "aa" = false ∧
      logScore (train mkModel [⟨none, some "aa", Label.spam⟩]) ["aa", "bb"] Label.spam =
        logScoreOn (train mkModel [⟨none, some "aa", Label.spam⟩])
          ((tfidfFromFeatures (train mkModel [⟨none, some "aa", Label.spam⟩])
            ["aa", "bb"]).filter (fun p => ¬ p.1 = "aa")) Label.spam :=
  ⟨by decide,
   (claim6_vocabulary_gating mkModel [⟨none, some "aa", Label.spam⟩] "aa" (by decide)).1,
   (claim6_vocabulary_gating mkModel [⟨none, some "aa", Label.spam⟩] "aa" (by decide)).2
     ["aa", "bb"] Label.spam⟩

/-! ## Out-of-vocabulary tokens (scenario C) -/

theorem countsList_append_single (ws : List String) (t : String) :
    countsList (ws ++ [t]) = alIncr (countsList ws) t := by
  unfold countsList
  rw [List.foldl_append]
  rfl

theorem filter_alIncr_not_has (l : List (String × Nat)) (t : String)
    (q : String → Bool) (hq : q t = false) :
    (alIncr l t).filter (fun p => q p.1) = l.filter (fun p => q p.1) := by
  induction l with
  | nil => simp [alIncr, List.filter, hq]
  | cons p rest ih =>
    by_cases hp : p.1 = t
    · rw [show alIncr (p :: rest) t = (p.1, p.2 + 1) :: rest from by
        simp [alIncr, hp]]
      rw [List.filter_cons, List.filter_cons]
      simp only [hp, hq]
      simp
    · rw [show alIncr (p :: rest) t = p :: alIncr rest t from by
        simp [alIncr, hp]]
      rw [List.filter_cons, List.filter_cons, ih]

theorem vocabTermSum_counts (m : Model) (c : Label) (L : List (String × Nat)) (d : ℚ) :
    vocabTermSum m ((L.map (fun p => (p.1, ((p.2 : ℚ) / d)))).map
      (fun p => (p.1, ((p.2 : ℚ) : ℝ) * idf m p.1))) c =
    ((L.filter (fun p => alHas m.vocabulary p.1)).map
      (fun p => Real.log ((condProbQ m c p.1 : ℚ) : ℝ) *
        ((((p.2 : ℚ) / d : ℚ) : ℝ) * idf m p.1))).sum := by
  unfold vocabTermSum
  rw [List.map_map, List.filter_map, List.map_map]
  rfl

/-- A token with document frequency `0` has inverse document
frequency `0`. -/
theorem idf_of_df_zero (m : Model) (t : String)
    (hdf : alGetD m.documentFrequency t = 0) : idf m t = 0 := by
  unfold idf
  simp [hdf]

/-- Appending one out-of-vocabulary token grows the term-frequency
denominator, scaling the vocabulary-filtered TF-IDF sum of each class
by `n/(n+1)`; the token itself contributes no term. -/
theorem vocabTermSum_append_unseen (m : Model) (ws : List String) (t : String)
    (hvocab : alHas m.vocabulary t = false) (c : Label) :
    vocabTermSum m (tfidfFromFeatures m (ws ++ [t])) c =
      ((ws.length : ℝ) / ((ws.length : ℝ) + 1)) *
        vocabTermSum m (tfidfFromFeatures m ws) c := by
  rcases Nat.eq_zero_or_pos ws.length with hn | hn
  · have hws : ws = [] := List.length_eq_zero.mp hn
    subst hws
    simp only [List.nil_append, List.length_nil, Nat.cast_zero, zero_div, zero_mul]
    simp only [tfidfFromFeatures, termFrequency, countsList, List.foldl_cons,
      List.foldl_nil, alIncr, vocabTermSum]
    simp [List.filter, hvocab]
  · simp only [tfidfFromFeatures, termFrequency]
    have hlen : (ws ++ [t]).length = ws.length + 1 := by simp
    rw [hlen, if_neg (by omega : ¬ ws.length + 1 = 0),
      if_neg (by omega : ¬ ws.length = 0)]
    rw [countsList_append_single]
    rw [vocabTermSum_counts, vocabTermSum_counts]
    rw [filter_alIncr_not_has _ _ _ hvocab]
    rw [← List.sum_map_mul_left]
    apply congrArg List.sum
    apply List.map_congr_left
    intro p hp
    have hn0 : ((ws.length : ℝ)) ≠ 0 := Nat.cast_ne_zero.mpr (by omega)
    have hn1 : ((ws.length : ℝ)) + 1 ≠ 0 := by positivity
    push_cast
    field_simp
    ring

/-- C2 (amended): a token with document frequency `0` that is outside
the vocabulary has TF-IDF weight `0` and is skipped by the scoring
loop, so prediction cannot fail on it; but appending it rescales every
term frequency by `n/(n+1)`, so each class's TF-IDF log-probability
sum is scaled by that factor rather than left unchanged. -/
theorem claim2_unseen_token (m : Model) (ws : List String) (t : String)
    (hdf : alGetD m.documentFrequency t = 0)
    (hvocab : alHas m.vocabulary t = false) :
    idf m t = 0 ∧
      ∀ c : Label,
        vocabTermSum m (tfidfFromFeatures m (ws ++ [t])) c =
          ((ws.length : ℝ) / ((ws.length : ℝ) + 1)) *
            vocabTermSum m (tfidfFromFeatures m ws) c :=
  ⟨idf_of_df_zero m t hdf, fun c => vocabTermSum_append_unseen m ws t hvocab c⟩

/-- C2 witness: the unseen token `zz` after the single in-vocabulary
token `aa` on the concretely trained model. -/
theorem claim2_unseen_token_witness :
    alGetD modelC.documentFrequency "zz" = 0 ∧
      alHas modelC.vocabulary "zz" = false ∧
      idf modelC "zz" = 0 ∧
      vocabTermSum modelC (tfidfFromFeatures modelC (["aa"] ++ ["zz"])) Label.spam =
        (((["aa"] : List String).length : ℝ) /
            (((["aa"] : List String).length : ℝ) + 1)) *
          vocabTermSum modelC (tfidfFromFeatures modelC ["aa"]) Label.spam :=
  ⟨by decide, by decide,
   (claim2_unseen_token modelC ["aa"] "zz" (by decide) (by decide)).1,
   (claim2_unseen_token modelC ["aa"] "zz" (by decide) (by decide)).2 Label.spam⟩

/-! ## Evaluation of the concrete model -/

theorem modelC_eq : modelC =
    ⟨[("aa", 0)], [("aa", 2), ("bb", 1), ("cc", 1)], 2, ⟨1, 1⟩,
     ⟨[("aa", 2), ("bb", 1)], [("aa", 1), ("cc", 1)]⟩, ⟨3, 2⟩, 1, 2, true⟩ := by
  decide

theorem idf_modelC_aa : idf modelC "aa" = 1 := by
  rw [modelC_eq]
  unfold idf
  norm_num [alGetD, alGet]

theorem tfidf_modelC_aa : tfidfFromFeatures modelC ["aa"] =
    [("aa", ((1 : ℚ) : ℝ) * idf modelC "aa")] := by
  unfold tfidfFromFeatures termFrequency countsList
  norm_num [alIncr]

theorem vocabTermSum_modelC_spam :
    vocabTermSum modelC (tfidfFromFeatures modelC ["aa"]) Label.spam =
      Real.log ((3/4 : ℚ) : ℝ) := by
  rw [tfidf_modelC_aa, idf_modelC_aa, modelC_eq]
  unfold vocabTermSum
  norm_num [alHas, List.filter, condProbQ, vocabSize, alGetD, alGet, ClassPair.get]

theorem vocabTermSum_modelC_ham :
    vocabTermSum modelC (tfidfFromFeatures modelC ["aa"]) Label.ham =
      Real.log ((2/3 : ℚ) : ℝ) := by
  rw [tfidf_modelC_aa, idf_modelC_aa, modelC_eq]
  unfold vocabTermSum
  norm_num [alHas, List.filter, condProbQ, vocabSize, alGetD, alGet, ClassPair.get]

/-- C2 counterexample: on the concretely trained model, appending the
never-seen token `zz` to the instance `aa` changes the returned
posterior score map. -/
theorem claim2_cex :
    (predict modelC (PredictInput.str "aa zz")).scores ≠
      (predict modelC (PredictInput.str "aa")).scores := by
  have htr : ¬ (modelC.isTrained = false) := by decide
  have hfa : inputFeatures (PredictInput.str "aa") = ["aa"] := by decide
  have hfz : inputFeatures (PredictInput.str "aa zz") = ["aa", "zz"] := by decide
  have hprior : priorQ modelC Label.ham = priorQ modelC Label.spam := by
    rw [modelC_eq]
    unfold priorQ
    norm_num [ClassPair.get]
  intro heq
  have e1 : (predict modelC (PredictInput.str "aa zz")).scores =
      [("spam", (posterior modelC ["aa", "zz"]).1),
       ("ham", (posterior modelC ["aa", "zz"]).2)] := by
    unfold predict
    rw [if_neg htr, hfz]
  have e2 : (predict modelC (PredictInput.str "aa")).scores =
      [("spam", (posterior modelC ["aa"]).1), ("ham", (posterior modelC ["aa"]).2)] := by
    unfold predict
    rw [if_neg htr, hfa]
  rw [e1, e2] at heq
  simp only [List.cons.injEq, Prod.mk.injEq, true_and, and_true] at heq
  have heqS : (posterior modelC ["aa", "zz"]).1 = (posterior modelC ["aa"]).1 := heq.1
  rw [posterior_fst_eq, posterior_fst_eq] at heqS
  have hd1 : logScore modelC ["aa"] Label.ham - logScore modelC ["aa"] Label.spam =
      Real.log ((2/3 : ℚ) : ℝ) - Real.log ((3/4 : ℚ) : ℝ) := by
    unfold logScore logScoreOn
    rw [vocabTermSum_modelC_spam, vocabTermSum_modelC_ham, hprior]
    ring
  have hh := vocabTermSum_append_unseen modelC ["aa"] "zz" (by decide) Label.ham
  have hs := vocabTermSum_append_unseen modelC ["aa"] "zz" (by decide) Label.spam
  simp only [List.cons_append, List.nil_append, List.length_singleton,
    Nat.cast_one] at hh hs
  have hd2 : logScore modelC ["aa", "zz"] Label.ham -
      logScore modelC ["aa", "zz"] Label.spam =
      (Real.log ((2/3 : ℚ) : ℝ) - Real.log ((3/4 : ℚ) : ℝ)) / 2 := by
    unfold logScore logScoreOn
    rw [hh, hs, vocabTermSum_modelC_spam, vocabTermSum_modelC_ham, hprior]
    ring
  obtain ⟨D, hDdef⟩ : ∃ D : ℝ,
      Real.log ((2/3 : ℚ) : ℝ) - Real.log ((3/4 : ℚ) : ℝ) = D := ⟨_, rfl⟩
  rw [hDdef] at hd1 hd2
  rw [hd1, hd2] at heqS
  have hp1 : (0:ℝ) < 1 + Real.exp (D / 2) := by positivity
  have hp2 : (0:ℝ) < 1 + Real.exp D := by positivity
  rw [div_eq_div_iff (ne_of_gt hp1) (ne_of_gt hp2)] at heqS
  simp only [one_mul, mul_one] at heqS
  have hexp : Real.exp (D / 2) = Real.exp D := by linarith
  have hD2 : D / 2 = D := Real.exp_injective hexp
  have hD0 : D = 0 := by linarith
  have hlog : Real.log ((2/3 : ℚ) : ℝ) = Real.log ((3/4 : ℚ) : ℝ) := by
    rw [hD0] at hDdef
    linarith
  have h23 : ((2/3 : ℚ) : ℝ) = ((3/4 : ℚ) : ℝ) := by
    have h5 := congrArg Real.exp hlog
    rwa [Real.exp_log (by norm_num), Real.exp_log (by norm_num)] at h5
  norm_num at h23

/-! ## Snapshot round-trip -/

/-- The function `predict` reads every model field except `minDf`, so
two models agreeing on those fields predict identically. -/
theorem predict_congr (m1 m2 : Model)
    (hv : m1.vocabulary = m2.vocabulary)
    (hdf : m1.documentFrequency = m2.documentFrequency)
    (ht : m1.totalDocuments = m2.totalDocuments)
    (hcdc : m1.classDocCount = m2.classDocCount)
    (hcwc : m1.classWordCounts = m2.classWordCounts)
    (hctw : m1.classTotalWords = m2.classTotalWords)
    (ha : m1.alpha = m2.alpha)
    (hit : m1.isTrained = m2.isTrained)
    (x : PredictInput) :
    predict m1 x = predict m2 x := by
  cases m1
  cases m2
  simp only at hv hdf ht hcdc hcwc hctw ha hit
  subst hv hdf ht hcdc hcwc hctw ha hit
  rfl

/-- C1 (amended): for a model trained from a fresh instance with the
default smoothing constant (the document-frequency minimum may be
overridden), deserializing its serialized snapshot into a fresh model
reproduces every prediction.  `alpha` is not serialized, so this fails
for overridden `alpha` (see the counterexample). -/
theorem claim1_roundtrip (d : Nat) (data : List TrainItem) (x : PredictInput) :
    predict (deserialize mkModel (serialize (train { mkModel with minDf := d } data))) x =
      predict (train { mkModel with minDf := d } data) x := by
  have h1 := mapFromEntries_self _ (nodup_train_vocab { mkModel with minDf := d } data)
  have h2 := mapFromEntries_self _ (nodup_train_df { mkModel with minDf := d } data)
  have h3 := mapFromEntries_self _
    (nodup_train_cwc { mkModel with minDf := d } data Label.spam)
  have h4 := mapFromEntries_self _
    (nodup_train_cwc { mkModel with minDf := d } data Label.ham)
  have ha := train_alpha { mkModel with minDf := d } data
  refine predict_congr
    (deserialize mkModel (serialize (train { mkModel with minDf := d } data)))
    (train { mkModel with minDf := d } data) h1 h2 rfl rfl ?_ rfl ha.symm rfl x
  show (⟨mapFromEntries
      (train { mkModel with minDf := d } data).classWordCounts.spam,
    mapFromEntries
      (train { mkModel with minDf := d } data).classWordCounts.ham⟩ : ClassPair _) =
    (train { mkModel with minDf := d } data).classWordCounts
  rw [show mapFromEntries (train { mkModel with minDf := d } data).classWordCounts.spam =
      (train { mkModel with minDf := d } data).classWordCounts.spam from h3]
  rw [show mapFromEntries (train { mkModel with minDf := d } data).classWordCounts.ham =
      (train { mkModel with minDf := d } data).classWordCounts.ham from h4]

/-! ## Evaluation of the model with overridden smoothing -/

theorem modelA_eq : modelA =
    ⟨[], [("aa", 1)], 1, ⟨1, 0⟩, ⟨[("aa", 1)], []⟩, ⟨1, 0⟩, 2, 2, true⟩ := by
  decide

theorem modelA_roundtrip_eq : deserialize mkModel (serialize modelA) =
    ⟨[], [("aa", 1)], 1, ⟨1, 0⟩, ⟨[("aa", 1)], []⟩, ⟨1, 0⟩, 1, 2, true⟩ := by
  decide

theorem vocabTermSum_empty_vocab (m : Model) (hv : m.vocabulary = [])
    (entries : List (String × ℝ)) (c : Label) :
    vocabTermSum m entries c = 0 := by
  unfold vocabTermSum
  rw [hv]
  rw [show entries.filter (fun p => alHas ([] : List (String × Nat)) p.1) = [] from by
    simp [alHas, List.filter_eq_nil_iff]]
  simp

theorem logScore_empty_vocab (m : Model) (hv : m.vocabulary = [])
    (fs : List String) (c : Label) :
    logScore m fs c = Real.log ((priorQ m c : ℚ) : ℝ) := by
  unfold logScore logScoreOn
  rw [vocabTermSum_empty_vocab m hv, add_zero]

/-- C1 counterexample: with `alpha` overridden to `2`, the model and
the round-tripped model disagree on the input `bb` (probability `3/5`
versus `2/3`), because `alpha` is not part of the snapshot. -/
theorem claim1_cex :
    predict modelA (PredictInput.str "bb") ≠
      predict (deserialize mkModel (serialize modelA)) (PredictInput.str "bb") := by
  have hfb : inputFeatures (PredictInput.str "bb") = ["bb"] := by decide
  have hq1 : priorQ modelA Label.spam = (3/5 : ℚ) := by
    rw [modelA_eq]
    unfold priorQ
    norm_num [ClassPair.get]
  have hq2 : priorQ modelA Label.ham = (2/5 : ℚ) := by
    rw [modelA_eq]
    unfold priorQ
    norm_num [ClassPair.get]
  have hq3 : priorQ (deserialize mkModel (serialize modelA)) Label.spam = (2/3 : ℚ) := by
    rw [modelA_roundtrip_eq]
    unfold priorQ
    norm_num [ClassPair.get]
  have hq4 : priorQ (deserialize mkModel (serialize modelA)) Label.ham = (1/3 : ℚ) := by
    rw [modelA_roundtrip_eq]
    unfold priorQ
    norm_num [ClassPair.get]
  have hvA : modelA.vocabulary = [] := by decide
  have hvB : (deserialize mkModel (serialize modelA)).vocabulary = [] := by decide
  have hpSA : (posterior modelA ["bb"]).1 = 3/5 := by
    rw [posterior_fst_eq, logScore_empty_vocab modelA hvA, logScore_empty_vocab modelA hvA,
      hq1, hq2]
    rw [Real.exp_sub, Real.exp_log (by norm_num), Real.exp_log (by norm_num)]
    norm_num
  have hpHA : (posterior modelA ["bb"]).2 = 2/5 := by
    rw [posterior_snd_eq, logScore_empty_vocab modelA hvA, logScore_empty_vocab modelA hvA,
      hq1, hq2]
    rw [Real.exp_sub, Real.exp_log (by norm_num), Real.exp_log (by norm_num)]
    norm_num
  have hpSB : (posterior (deserialize mkModel (serialize modelA)) ["bb"]).1 = 2/3 := by
    rw [posterior_fst_eq, logScore_empty_vocab _ hvB, logScore_empty_vocab _ hvB,
      hq3, hq4]
    rw [Real.exp_sub, Real.exp_log (by norm_num), Real.exp_log (by norm_num)]
    norm_num
  have hpHB : (posterior (deserialize mkModel (serialize modelA)) ["bb"]).2 = 1/3 := by
    rw [posterior_snd_eq, logScore_empty_vocab _ hvB, logScore_empty_vocab _ hvB,
      hq3, hq4]
    rw [Real.exp_sub, Real.exp_log (by norm_num), Real.exp_log (by norm_num)]
    norm_num
  have htrA : ¬ (modelA.isTrained = false) := by decide
  have htrB : ¬ ((deserialize mkModel (serialize modelA)).isTrained = false) := by decide
  have e1 : (predict modelA (PredictInput.str "bb")).probability = 3/5 := by
    unfold predict
    rw [if_neg htrA, hfb]
    simp only
    rw [hpSA, hpHA]
    rw [if_pos (by norm_num : (3/5 : ℝ) > 2/5)]
  have e2 : (predict (deserialize mkModel (serialize modelA))
      (PredictInput.str "bb")).probability = 2/3 := by
    unfold predict
    rw [if_neg htrB, hfb]
    simp only
    rw [hpSB, hpHB]
    rw [if_pos (by norm_num : (2/3 : ℝ) > 1/3)]
  intro heq
  rw [heq] at e1
  rw [e2] at e1
  norm_num at e1

/-- C10 witness: on the symmetric model the two scores are exactly
equal for an unseen input, and the tie goes to `ham`. -/
theorem claim10_tie_breaks_ham_witness :
    modelT.isTrained = true ∧
      (posterior modelT (inputFeatures (PredictInput.str "cc cc"))).1 =
        (posterior modelT (inputFeatures (PredictInput.str "cc cc"))).2 ∧
      (predict modelT (PredictInput.str "cc cc")).label = "ham" :=
  ⟨by decide, rfl,
   claim10_tie_breaks_ham modelT (PredictInput.str "cc cc") (by decide) rfl⟩

end SpamGuard
